import Mathlib

/-!
Verification of the cell-memory library (tye-exe/Memory).

The source stores each cell value behind `Arc<Mutex<...>>`: the slot holds a
reference-counted pointer to an immutable value on the heap, and every write
allocates a fresh value and swaps the pointer.  We embed this shallowly:

* the heap of reference-counted allocations is a `List V` that only ever
  grows (`Arc::new` is an append; values behind an address are never
  overwritten, matching the immutability of the pointee);
* an address (index into the heap) plays the role of an `Arc<Value>`
  snapshot;
* a `Da<Value>` (mandatory cell, src/src/data_access/mod.rs) is the pair of
  the heap and the address currently installed in its slot;
* an `Oda<Value>` (optional cell) holds an optional address.

Aliasing clones of a cell share the same slot in the source; in the embedding
they are simply the same state, so an operation "through an aliasing clone"
is an operation on the same `Da`/`Oda` state.
-/

/-- State of a `Da<Value>` handle (src/src/data_access/mod.rs, `Da`):
the heap of reference-counted allocations plus the address the slot
currently points to. -/
structure Da (V : Type) where
  heap : List V
  addr : Nat
deriving Repr, DecidableEq

/-- State of an `Oda<Value>` handle (src/src/data_access/mod.rs, `Oda`):
the heap plus an optional address (the slot holds `Option<Arc<Value>>`). -/
structure Oda (V : Type) where
  heap : List V
  addr : Option Nat
deriving Repr, DecidableEq

variable {V : Type}

/-- Dereference a snapshot address in a heap (reading through an `Arc`). -/
def heapAt [Inhabited V] (heap : List V) (a : Nat) : V :=
  heap.getD a default

/-- `Da::new(data)`: a fresh slot pointing at a fresh allocation of `data`. -/
def Da.new (data : V) : Da V :=
  { heap := [data], addr := 0 }

/-- `Da::get()`: returns the current snapshot (the address the slot holds).
The returned address is decoupled from future writes. -/
def Da.get (s : Da V) : Nat :=
  s.addr

/-- The value a `Da` currently holds, i.e. the pointee of `get()`
(`Da::copy_value` reads the same thing for `Copy` values). -/
def Da.deref [Inhabited V] (s : Da V) : V :=
  heapAt s.heap s.get

/-- `Da::set(new_data)`: allocates `Arc::new(new_data)` (heap append) and
installs the fresh address in the slot.  The old allocation stays intact. -/
def Da.set (s : Da V) (newData : V) : Da V :=
  { heap := s.heap ++ [newData], addr := s.heap.length }

/-- `Da::mutate(func)`: clones the current value out via `get`, applies
`func`, and writes the result back with `set`. -/
def Da.mutate [Inhabited V] (s : Da V) (func : V → V) : Da V :=
  s.set (func s.deref)

/-- `Oda::new(data)`. -/
def Oda.new (data : V) : Oda V :=
  { heap := [data], addr := some 0 }

/-- `Oda::default()`: a slot holding no value. -/
def Oda.defaultState : Oda V :=
  { heap := [], addr := none }

/-- `Oda::get()`: the current optional snapshot address. -/
def Oda.get (s : Oda V) : Option Nat :=
  s.addr

/-- The optional value an `Oda` currently holds (the pointee of `get()`). -/
def Oda.deref [Inhabited V] (s : Oda V) : Option V :=
  s.get.map (heapAt s.heap)

/-- `Oda::set(new_data)`: allocates the new value and installs `Some` of the
fresh address. -/
def Oda.set (s : Oda V) (newData : V) : Oda V :=
  { heap := s.heap ++ [newData], addr := some s.heap.length }

/-- `Oda::mutate(func)`: if a value is present it is cloned out, `func` is
applied and the result written back via `set`; if the slot is empty the
method has no effect (and `func` is never invoked). -/
def Oda.mutate [Inhabited V] (s : Oda V) (func : V → V) : Oda V :=
  match s.deref with
  | some oldValue => s.set (func oldValue)
  | none => s

/-- `Oda::empty()` (the spec's `take()`): reads the slot and leaves `None`
in its place, returning what was there.  The heap is untouched, so the
returned snapshot stays valid. -/
def Oda.take (s : Oda V) : Option Nat × Oda V :=
  (s.addr, { heap := s.heap, addr := none })

/-- Writes that can hit a `Da` slot through any aliasing handle. -/
inductive DaOp (V : Type) where
  | set (v : V)
  | mutate (f : V → V)

/-- Writes that can hit an `Oda` slot through any aliasing handle. -/
inductive OdaOp (V : Type) where
  | set (v : V)
  | mutate (f : V → V)
  | take

/-- One write on a `Da` cell. -/
def Da.step [Inhabited V] (s : Da V) : DaOp V → Da V
  | .set v => s.set v
  | .mutate f => s.mutate f

/-- One write on an `Oda` cell. -/
def Oda.step [Inhabited V] (s : Oda V) : OdaOp V → Oda V
  | .set v => s.set v
  | .mutate f => s.mutate f
  | .take => (s.take).2

/-- Run a sequence of writes on a `Da` cell. -/
def Da.run [Inhabited V] (s : Da V) : List (DaOp V) → Da V
  | [] => s
  | op :: ops => (s.step op).run ops

/-- Run a sequence of writes on an `Oda` cell. -/
def Oda.run [Inhabited V] (s : Oda V) : List (OdaOp V) → Oda V
  | [] => s
  | op :: ops => (s.step op).run ops

theorem heapAt_append [Inhabited V] (heap : List V) (extra : List V) (a : Nat)
    (h : a < heap.length) : heapAt (heap ++ extra) a = heapAt heap a := by
  simp [heapAt, List.getD, List.getElem?_append_left h]

theorem daStep_heap_grows [Inhabited V] (s : Da V) (op : DaOp V) (a : Nat)
    (h : a < s.heap.length) :
    a < (s.step op).heap.length ∧ heapAt (s.step op).heap a = heapAt s.heap a := by
  cases op with
  | set v =>
      refine ⟨?_, heapAt_append _ _ _ h⟩
      simp [Da.step, Da.set]
      omega
  | mutate f =>
      refine ⟨?_, heapAt_append _ _ _ h⟩
      simp [Da.step, Da.mutate, Da.set]
      omega

theorem odaStep_heap_grows [Inhabited V] (s : Oda V) (op : OdaOp V) (a : Nat)
    (h : a < s.heap.length) :
    a < (s.step op).heap.length ∧ heapAt (s.step op).heap a = heapAt s.heap a := by
  cases op with
  | set v =>
      refine ⟨?_, heapAt_append _ _ _ h⟩
      simp [Oda.step, Oda.set]
      omega
  | mutate f =>
      cases hd : s.deref with
      | some w =>
          refine ⟨?_, ?_⟩
          · simp [Oda.step, Oda.mutate, hd, Oda.set]
            omega
          · simp only [Oda.step, Oda.mutate, hd, Oda.set]
            exact heapAt_append _ _ _ h
      | none =>
          simp [Oda.step, Oda.mutate, hd]
          exact h
  | take =>
      simp [Oda.step, Oda.take]
      exact h

theorem daRun_heap_grows [Inhabited V] (s : Da V) (ops : List (DaOp V)) (a : Nat)
    (h : a < s.heap.length) :
    a < (s.run ops).heap.length ∧ heapAt (s.run ops).heap a = heapAt s.heap a := by
  induction ops generalizing s with
  | nil => exact ⟨h, rfl⟩
  | cons op ops ih =>
      obtain ⟨h1, h2⟩ := daStep_heap_grows s op a h
      obtain ⟨h3, h4⟩ := ih (s.step op) h1
      exact ⟨h3, h4.trans h2⟩

theorem odaRun_heap_grows [Inhabited V] (s : Oda V) (ops : List (OdaOp V)) (a : Nat)
    (h : a < s.heap.length) :
    a < (s.run ops).heap.length ∧ heapAt (s.run ops).heap a = heapAt s.heap a := by
  induction ops generalizing s with
  | nil => exact ⟨h, rfl⟩
  | cons op ops ih =>
      obtain ⟨h1, h2⟩ := odaStep_heap_grows s op a h
      obtain ⟨h3, h4⟩ := ih (s.step op) h1
      exact ⟨h3, h4.trans h2⟩

/-- C1: Snapshot immutability.  For a `Da` cell, a snapshot address obtained
via `get()` dereferences to the same value after any sequence of `set` /
`mutate` writes on the same slot (aliasing clones share the slot, so this
covers writes through any handle); likewise for an `Oda` cell and any
present snapshot it returned.  Writes only append fresh allocations to the
heap and swap the slot pointer; they never modify the referenced value. -/
theorem C1_snapshot_immutability [Inhabited V] :
    (∀ (s : Da V) (ops : List (DaOp V)),
      s.get < s.heap.length →
      heapAt (s.run ops).heap s.get = heapAt s.heap s.get) ∧
    (∀ (s : Oda V) (ops : List (OdaOp V)) (a : Nat),
      s.get = some a → a < s.heap.length →
      heapAt (s.run ops).heap a = heapAt s.heap a) := by
  constructor
  · intro s ops h
    exact (daRun_heap_grows s ops s.get h).2
  · intro s ops a _ h
    exact (odaRun_heap_grows s ops a h).2

theorem C1_snapshot_immutability_witness :
    heapAt ((Da.new 7).run [.set 5, .mutate (fun v => v + 1)]).heap (Da.new 7).get = 7 ∧
    heapAt ((Oda.new 7).run [.set 5, .take, .mutate (fun v => v + 1)]).heap 0 = 7 := by
  constructor
  · exact ((C1_snapshot_immutability (V := Nat)).1 (Da.new 7)
      [.set 5, .mutate (fun v => v + 1)] (by decide)).trans (by decide)
  · exact ((C1_snapshot_immutability (V := Nat)).2 (Oda.new 7)
      [.set 5, .take, .mutate (fun v => v + 1)] 0 rfl (by decide)).trans (by decide)

/-- `Da::mutate` with an arbitrary interleaving: the initial value is read
and cloned out with no lock held, then any writes by other handles may run,
then the function result computed from the initial value is written back
with `set`. -/
def Da.mutateInterleaved [Inhabited V] (s : Da V) (f : V → V)
    (ops : List (DaOp V)) : Da V :=
  let v0 := s.deref
  (s.run ops).set (f v0)

/-- `Oda::mutate` with an arbitrary interleaving: the write-back happens
exactly when the initial read found a value, and it writes the function of
that initial value. -/
def Oda.mutateInterleaved [Inhabited V] (s : Oda V) (f : V → V)
    (ops : List (OdaOp V)) : Oda V :=
  match s.deref with
  | some v0 => (s.run ops).set (f v0)
  | none => s.run ops

/-- C2: Mutate is last-writer-wins.  If `mutate(f)` reads `V0` from a cell
and any number of `set`/`mutate`(/`take`) writes by other handles run before
its write-back, the value stored when `mutate` returns is `f V0`: the
interleaved writes are discarded, not merged.  Holds for `Da` and for `Oda`
(when the initial read found a value); with an empty interleaving the
decomposition coincides with the plain `mutate` of the source. -/
theorem C2_mutate_last_writer_wins [Inhabited V] :
    (∀ (s : Da V) (f : V → V) (ops : List (DaOp V)),
      (s.mutateInterleaved f ops).deref = f s.deref) ∧
    (∀ (s : Oda V) (f : V → V) (ops : List (OdaOp V)) (v0 : V),
      s.deref = some v0 →
      (s.mutateInterleaved f ops).deref = some (f v0)) ∧
    (∀ (s : Da V) (f : V → V), s.mutateInterleaved f [] = s.mutate f) ∧
    (∀ (s : Oda V) (f : V → V), s.mutateInterleaved f [] = s.mutate f) := by
  refine ⟨?_, ?_, ?_, ?_⟩
  · intro s f ops
    simp [Da.mutateInterleaved, Da.set, Da.deref, Da.get, heapAt, List.getD]
  · intro s f ops v0 h
    simp only [Oda.mutateInterleaved, h]
    simp [Oda.set, Oda.deref, Oda.get, heapAt, List.getD]
  · intro s f
    simp [Da.mutateInterleaved, Da.run, Da.mutate]
  · intro s f
    cases hd : s.deref with
    | some w => simp [Oda.mutateInterleaved, hd, Oda.run, Oda.mutate]
    | none => simp [Oda.mutateInterleaved, hd, Oda.run, Oda.mutate]

theorem C2_mutate_last_writer_wins_witness :
    ((Da.new 0).mutateInterleaved (fun v => v + 1)
      [.set 99, .mutate (fun v => v * 2)]).deref = 1 ∧
    ((Oda.new 0).mutateInterleaved (fun v => v + 1) [.set 99, .take]).deref = some 1 := by
  constructor
  · exact ((C2_mutate_last_writer_wins (V := Nat)).1 (Da.new 0) (fun v => v + 1)
      [.set 99, .mutate (fun v => v * 2)]).trans (by decide)
  · exact ((C2_mutate_last_writer_wins (V := Nat)).2.1 (Oda.new 0) (fun v => v + 1)
      [.set 99, .take] 0 (by decide)).trans (by decide)

/-- C9: OptionalCell absence is not an error.  On an absent `Oda`: `get()`
returns absent, `mutate(f)` leaves the state entirely unchanged for every
`f` (so `f` is never invoked: the result cannot depend on it), and `take`
returns absent.  On an `Oda` holding `v`: `take` returns the snapshot of `v`
and leaves the cell absent (with the snapshot still dereferencing to `v`). -/
theorem C9_optional_absence [Inhabited V] :
    (∀ s : Oda V, s.deref = none →
      (s.get = none ∧
       (∀ f : V → V, s.mutate f = s) ∧
       (∀ f g : V → V, s.mutate f = s.mutate g) ∧
       (s.take).1 = none)) ∧
    (∀ (s : Oda V) (a : Nat), s.get = some a →
      (s.take).1 = some a ∧ ((s.take).2).deref = none ∧
      heapAt ((s.take).2).heap a = heapAt s.heap a) := by
  constructor
  · intro s h
    have hget : s.get = none := by
      cases hg : s.get with
      | none => rfl
      | some a => simp [Oda.deref, hg] at h
    refine ⟨hget, ?_, ?_, ?_⟩
    · intro f; simp [Oda.mutate, h]
    · intro f g; simp [Oda.mutate, h]
    · simp [Oda.take, Oda.get] at hget ⊢; exact hget
  · intro s a h
    refine ⟨?_, ?_, rfl⟩
    · simpa [Oda.take, Oda.get] using h
    · simp [Oda.take, Oda.deref, Oda.get]

theorem C9_optional_absence_witness :
    ((Oda.defaultState (V := Nat)).mutate (fun v => v + 1) = Oda.defaultState ∧
      ((Oda.defaultState (V := Nat)).take).1 = none) ∧
    (((Oda.new 7).take).1 = some 0 ∧ (((Oda.new 7).take).2).deref = none) := by
  constructor
  · exact ⟨((C9_optional_absence (V := Nat)).1 Oda.defaultState rfl).2.1 _,
      ((C9_optional_absence (V := Nat)).1 Oda.defaultState rfl).2.2.2⟩
  · refine ⟨((C9_optional_absence (V := Nat)).2 (Oda.new 7) 0 rfl).1, ?_⟩
    exact ((C9_optional_absence (V := Nat)).2 (Oda.new 7) 0 rfl).2.1

/-!
Concurrent array (src/src/vec.rs, `CellVec`).

At value level a `CellVec` is the triple of the contents of its three cells:
`len`, `capacity` and `array` (the backing storage, a boxed slice of per-slot
`Oda`s, each holding an optional value).  The source can abort the process
(Rust panics: slice indexing out of range, `split_at` past the end,
`expect` on an empty slot), so every mutating operation returns an `Option`:
`none` models an aborting run.
-/

/-- `CellVecErr` (src/src/vec.rs): the out-of-bounds error carrying the
offending index and the bound (`max_bound`, the current length). -/
inductive CellVecErr where
  | outOfBounds (index : Nat) (maxBound : Nat)
deriving Repr, DecidableEq

/-- Value-level state of a `CellVec<Value>` (src/src/vec.rs): contents of
the `len`, `capacity` and `array` cells. -/
structure CellVec (V : Type) where
  len : Nat
  capacity : Nat
  array : List (Option V)
deriving Repr, DecidableEq

/-- `CellVec::new()`: capacity = length = 0, empty storage. -/
def CellVec.new : CellVec V :=
  { len := 0, capacity := 0, array := [] }

/-- `CellVec::in_bounds(index)`: `Ok` when `index < len`, otherwise the
`OutOfBounds` error with `max_bound = len`. -/
def CellVec.in_bounds (s : CellVec V) (index : Nat) : Except CellVecErr Unit :=
  if index < s.len then .ok () else .error (.outOfBounds index s.len)

/-- `CellVec::get(index)`: `none` result (inner) when out of bounds;
otherwise the value in slot `index`.  The outer `Option` is `none` when the
source would abort (slice index past the storage, or an in-bounds slot that
is unexpectedly empty, `EXPECTED_VALUE_MESSAGE`). -/
def CellVec.get (s : CellVec V) (index : Nat) : Option (Option V) :=
  if index < s.len then
    match s.array[index]? with
    | some (some v) => some (some v)
    | _ => none
  else some none

/-- `CellVec::set(index, value)`: `none` result when out of bounds (the
`in_bounds` error is discarded by `.ok()?`); otherwise the slot at `index`
is swapped to the new value and the previous snapshot is returned (the
source documents and tests this return; an empty in-bounds slot would abort
via `expect`). -/
def CellVec.set (s : CellVec V) (index : Nat) (newValue : V) :
    Option (Option V × CellVec V) :=
  if index < s.len then
    match s.array[index]? with
    | some (some oldValue) =>
        some (some oldValue, { s with array := s.array.set index (some newValue) })
    | _ => none
  else some (none, s)

/-- `CellVec::push(new_value)` (the body of the closure run by
`locking_mutate!` over the three cells): when `len >= capacity` the storage
is extended with `max(capacity, 1)` fresh empty slots and capacity becomes 1
(from 0) or doubles; then slot `len` is set to the value and `len` is
incremented.  `none` models the abort when `array[len]` is out of range. -/
def CellVec.push (s : CellVec V) (newValue : V) : Option (CellVec V) :=
  let grown :=
    if s.capacity ≤ s.len then
      { len := s.len,
        capacity := if s.capacity = 0 then s.capacity + 1 else s.capacity <<< 1,
        array := s.array ++ List.replicate (max s.capacity 1) none }
    else s
  if grown.len < grown.array.length then
    some { len := grown.len + 1,
           capacity := grown.capacity,
           array := grown.array.set grown.len (some newValue) }
  else none

/-- `CellVec::remove(index)` (with the closure run by `locking_mutate!`):
out of bounds gives the `OutOfBounds` error and leaves the state unchanged;
otherwise the slot at `index` is cut out of the storage, `len` is
decremented and capacity halves exactly when `capacity >> 1 >= len` after
the decrement.  `none` models the aborts (`split_at` past the storage end,
or `expect` on an empty removed slot). -/
def CellVec.remove (s : CellVec V) (index : Nat) :
    Option (Except CellVecErr V × CellVec V) :=
  match s.in_bounds index with
  | .error e => some (.error e, s)
  | .ok _ =>
    match s.array[index]? with
    | none => none
    | some none => none
    | some (some removedValue) =>
        let newLen := s.len - 1
        let newCap :=
          if newLen ≤ s.capacity >>> 1 then s.capacity >>> 1 else s.capacity
        some (.ok removedValue,
          { len := newLen, capacity := newCap, array := s.array.eraseIdx index })

/-- The mutating operations of the concurrent array. -/
inductive VecOp (V : Type) where
  | push (v : V)
  | set (index : Nat) (v : V)
  | remove (index : Nat)

/-- One mutating operation on a `CellVec` (discarding returned values; a
`remove` that reports out of bounds leaves the state unchanged). -/
def CellVec.step (s : CellVec V) : VecOp V → Option (CellVec V)
  | .push v => s.push v
  | .set index v => (s.set index v).map Prod.snd
  | .remove index => (s.remove index).map Prod.snd

/-- Run a sequence of array operations; `none` when some operation aborts. -/
def CellVec.runOps (s : CellVec V) : List (VecOp V) → Option (CellVec V)
  | [] => some s
  | op :: ops =>
    match s.step op with
    | none => none
    | some s1 => s1.runOps ops

theorem CellVec.push_capacity (s : CellVec V) (v : V) (s1 : CellVec V)
    (h : s.push v = some s1) :
    s1.capacity =
      (if s.capacity ≤ s.len then
        (if s.capacity = 0 then 1 else s.capacity <<< 1)
      else s.capacity) ∧
    s1.len = s.len + 1 ∧
    (s.capacity ≤ s.len →
      s1.array = (s.array ++ List.replicate (max s.capacity 1) none).set s.len (some v)) := by
  by_cases hc : s.capacity ≤ s.len
  · simp only [CellVec.push, if_pos hc] at h
    split at h
    · cases h
      refine ⟨?_, by simp [hc], by simp [hc]⟩
      by_cases h0 : s.capacity = 0 <;> simp [hc, h0]
    · cases h
  · simp only [CellVec.push, if_neg hc] at h
    split at h
    · cases h
      simp [hc]
    · cases h

theorem CellVec.remove_capacity (s : CellVec V) (index : Nat) (v : V) (s1 : CellVec V)
    (h : s.remove index = some (.ok v, s1)) :
    s1.len = s.len - 1 ∧
    s1.capacity =
      (if s.len - 1 ≤ s.capacity >>> 1 then s.capacity >>> 1 else s.capacity) := by
  unfold CellVec.remove at h
  split at h
  · cases h
  · split at h
    · cases h
    · cases h
    · cases h
      simp

/-- C4: Array growth/shrink law.  Pushing one value at a time into an empty
array yields capacities 1, 2, 4, 4, 8 after the first five pushes; whenever
a push finds `len >= capacity` the capacity goes from 0 to 1 or doubles and
the storage is extended with `max(capacity, 1)` fresh empty slots before the
value is installed; a successful remove decrements the length and halves the
capacity exactly when `capacity >> 1 >=` the decremented length, so removing
one at a time from the length-5 / capacity-8 state yields capacities
4, 4, 2, 1, 0 as the length drops 4, 3, 2, 1, 0. -/
theorem C4_growth_shrink_law :
    ((∀ k ∈ [1, 2, 3, 4, 5],
        ((CellVec.new (V := Nat)).runOps (List.replicate k (.push 0))).map
            CellVec.capacity =
          some ([1, 2, 4, 4, 8].getD (k - 1) 0)) ∧
      (∀ k ∈ [1, 2, 3, 4, 5],
        (((CellVec.new (V := Nat)).runOps (List.replicate 5 (.push 0))).bind
              (fun s => s.runOps (List.replicate k (.remove 0)))).map
            (fun s => (s.len, s.capacity)) =
          some (5 - k, [4, 4, 2, 1, 0].getD (k - 1) 0))) ∧
    (∀ (s : CellVec V) (v : V) (s1 : CellVec V), s.push v = some s1 →
      s1.capacity =
        (if s.capacity ≤ s.len then
          (if s.capacity = 0 then 1 else s.capacity <<< 1)
        else s.capacity) ∧
      (s.capacity ≤ s.len →
        s1.array = (s.array ++ List.replicate (max s.capacity 1) none).set s.len (some v))) ∧
    (∀ (s : CellVec V) (index : Nat) (v : V) (s1 : CellVec V),
      s.remove index = some (.ok v, s1) →
      s1.len = s.len - 1 ∧
      s1.capacity =
        (if s.len - 1 ≤ s.capacity >>> 1 then s.capacity >>> 1 else s.capacity)) := by
  refine ⟨⟨?_, ?_⟩, ?_, ?_⟩
  · decide
  · decide
  · intro s v s1 h
    obtain ⟨h1, _, h3⟩ := s.push_capacity v s1 h
    exact ⟨h1, h3⟩
  · intro s index v s1 h
    exact s.remove_capacity index v s1 h

theorem C4_growth_shrink_law_witness :
    ((CellVec.new (V := Nat)).runOps (List.replicate 3 (.push 0))).map
        CellVec.capacity = some 4 ∧
    (CellVec.mk 2 2 [some 5, some 6] : CellVec Nat).capacity = 2 ∧
    (CellVec.mk 1 1 [some 6] : CellVec Nat).capacity = 1 := by
  refine ⟨(C4_growth_shrink_law (V := Nat)).1.1 3 (by decide), ?_, ?_⟩
  · have h := ((C4_growth_shrink_law (V := Nat)).2.1 (CellVec.mk 1 1 [some 5]) 6
      (CellVec.mk 2 2 [some 5, some 6]) (by decide)).1
    exact h.trans (by decide)
  · have h := ((C4_growth_shrink_law (V := Nat)).2.2 (CellVec.mk 2 2 [some 5, some 6]) 0 5
      (CellVec.mk 1 1 [some 6]) rfl).2
    exact h.trans (by decide)

/-- C7: the claimed structural invariant fails in the code.  After
`push 0, push 1, push 2` the state is length 3 / capacity 4 / 4 storage
slots; `remove 0` erases one storage slot (3 remain) while halving the
capacity to 2, so the storage element count no longer equals the capacity.
Worse, after four pushes and a `remove 0` the capacity stays 4 while only 3
storage slots remain, and the next in-bounds `push` aborts (index out of
range inside the push closure), modelled by `runOps` returning `none`. -/
theorem C7_storage_capacity_invariant_fails :
    (((CellVec.new (V := Nat)).runOps
          [.push 0, .push 1, .push 2, .remove 0]).map
        (fun s => (s.array.length, s.capacity, s.len)) = some (3, 2, 2)) ∧
    ((CellVec.new (V := Nat)).runOps
        [.push 0, .push 1, .push 2, .push 3, .remove 0, .push 4] = none) := by
  constructor
  · decide
  · decide

/-- Modelled from the claim wording of C8, not from the source: a bounds
check whose failure is reported to the caller of `set` as an
`IndexOutOfBounds` error carrying the offending index and `bound = length`.
The source's `set` instead discards the error built by `in_bounds`
(`.ok()?`) and returns a plain `none`. -/
def CellVec.setClaimC8 (s : CellVec V) (index : Nat) : Except CellVecErr Unit :=
  if index < s.len then .ok () else .error (.outOfBounds index s.len)

/-- C8 counterexample: on a length-3 array, out-of-bounds `set` at index 5
and at index 6 return the identical plain `none` (state unchanged), so the
result cannot be carrying the offending index; the claim-modelled error
results for the two indices are distinct. -/
theorem C8_counterexample :
    CellVec.set (CellVec.mk 3 4 [some 0, some 1, some 2, none]) 5 9 =
      some (none, CellVec.mk 3 4 [some 0, some 1, some 2, none]) ∧
    CellVec.set (CellVec.mk 3 4 [some 0, some 1, some 2, none]) 6 9 =
      some (none, CellVec.mk 3 4 [some 0, some 1, some 2, none]) ∧
    (CellVec.setClaimC8 (CellVec.mk 3 4 [some 0, some 1, some 2, (none : Option Nat)]) 5 =
        .error (.outOfBounds 5 3) ∧
      CellVec.setClaimC8 (CellVec.mk 3 4 [some 0, some 1, some 2, (none : Option Nat)]) 6 =
        .error (.outOfBounds 6 3) ∧
      CellVecErr.outOfBounds 5 3 ≠ CellVecErr.outOfBounds 6 3) := by
  refine ⟨by decide, by decide, rfl, rfl, by decide⟩

/-- C8 (amended): for every index >= length, `get` returns absent, `set`
returns absent (no error value) leaving length, capacity and storage
unchanged, and `remove` signals `IndexOutOfBounds{index, bound = length}`
leaving the state unchanged; for every index < length whose slot holds a
value, `set` replaces that slot and returns the previous snapshot. -/
theorem C8_bounds_handling (s : CellVec V) (index : Nat) (v : V) :
    (s.len ≤ index →
      s.get index = some none ∧
      s.set index v = some (none, s) ∧
      s.remove index = some (.error (.outOfBounds index s.len), s)) ∧
    (∀ w, index < s.len → s.array[index]? = some (some w) →
      s.set index v = some (some w, { s with array := s.array.set index (some v) })) := by
  constructor
  · intro h
    have hn : ¬ index < s.len := by omega
    refine ⟨?_, ?_, ?_⟩
    · simp [CellVec.get, hn]
    · simp [CellVec.set, hn]
    · simp [CellVec.remove, CellVec.in_bounds, hn]
  · intro w h hw
    simp [CellVec.set, h, hw]

theorem C8_bounds_handling_witness :
    ((CellVec.mk 3 4 [some 0, some 1, some 2, none]).get 7 = some none ∧
      (CellVec.mk 3 4 [some 0, some 1, some 2, none]).set 7 9 =
        some (none, CellVec.mk 3 4 [some 0, some 1, some 2, none]) ∧
      (CellVec.mk 3 4 [some 0, some 1, some 2, none]).remove 7 =
        some (.error (.outOfBounds 7 3), CellVec.mk 3 4 [some 0, some 1, some 2, none])) ∧
    (CellVec.mk 3 4 [some 0, some 1, some 2, (none : Option Nat)]).set 1 9 =
      some (some 1, CellVec.mk 3 4 [some 0, some 9, some 2, none]) := by
  constructor
  · exact (C8_bounds_handling (CellVec.mk 3 4 [some 0, some 1, some 2, none]) 7 9).1
      (by decide)
  · have := (C8_bounds_handling (CellVec.mk 3 4 [some 0, some 1, some 2, (none : Option Nat)])
      1 9).2 1 (by decide) (by decide)
    simpa using this

/-!
Concurrent hash table (src/src/hash.rs, `CellHashMap` / `CellEntry`).

A bucket chain of `CellEntry` nodes (key, value `Da`, `next` `Oda`) is, at
value level, a list of key/value pairs in chain order; a bucket is either
absent or holds a non-empty chain.  The hash function of the key type is
abstracted as a parameter `hash : K → Nat`; the source uses a stable
`DefaultHasher` and reduces it modulo `DEFAULT_MAX_SIZE = 256`.
-/

/-- `DEFAULT_MAX_SIZE` (src/src/hash.rs): the fixed bucket count. -/
def DEFAULT_MAX_SIZE : Nat := 256

/-- The bucket addressed by a key: `hash_key(key) % DEFAULT_MAX_SIZE`. -/
def bucketIdx {K : Type} (hash : K → Nat) (key : K) : Nat :=
  hash key % DEFAULT_MAX_SIZE

/-- Value-level state of a `CellHashMap<Key, Value>`: the contents of all
bucket slots (`none` = empty bucket, `some chain` = chain from that root). -/
structure CellHashMap (K V : Type) where
  buckets : Nat → Option (List (K × V))

variable {K : Type} [DecidableEq K]

/-- `CellHashMap::new()`: every bucket slot empty. -/
def CellHashMap.new : CellHashMap K V :=
  { buckets := fun _ => none }

/-- `CellEntry::get(key)` along a chain: if this node's key matches, its
value; else recurse on `next`; `none` past the end.  (The `[]` case only
pads totality: stored chains are never empty.) -/
def chainGet (chain : List (K × V)) (key : K) : Option V :=
  match chain with
  | [] => none
  | (k0, v0) :: rest => if k0 = key then some v0 else chainGet rest key

/-- `CellEntry::set(entry)` along a chain, for `entry = {key, value,
next=absent}`: on a key match the node's value cell is overwritten in place
and the previous value is returned; otherwise recurse on `next`; at the
chain end the new entry is appended as that node's `next` and `none` is
returned.  (The `[]` case only pads totality: `set` is called on a real
node.) -/
def entrySet (chain : List (K × V)) (key : K) (value : V) :
    Option V × List (K × V) :=
  match chain with
  | [] => (none, [(key, value)])
  | (k0, v0) :: rest =>
    if k0 = key then (some v0, (k0, value) :: rest)
    else
      match rest with
      | [] => (none, [(k0, v0), (key, value)])
      | _ :: _ =>
        let result := entrySet rest key value
        (result.1, (k0, v0) :: result.2)

/-- Replace the value of the first node whose key matches, leaving
everything else (keys, order, links) unchanged. -/
def chainReplace (chain : List (K × V)) (key : K) (value : V) : List (K × V) :=
  match chain with
  | [] => []
  | (k0, v0) :: rest =>
    if k0 = key then (k0, value) :: rest
    else (k0, v0) :: chainReplace rest key value

/-- `CellHashMap::put(key, value)`: address bucket `hash(key) % 256`; an
empty bucket gets the fresh node installed (returns `none`); otherwise the
chain is walked by `CellEntry::set` and the previous value, if any, is
returned (cloned out of the returned old-value node). -/
def CellHashMap.put (hash : K → Nat) (m : CellHashMap K V) (key : K) (value : V) :
    Option V × CellHashMap K V :=
  let position := bucketIdx hash key
  match m.buckets position with
  | none =>
    (none,
      { buckets := fun j => if j = position then some [(key, value)] else m.buckets j })
  | some chain =>
    let result := entrySet chain key value
    (result.1,
      { buckets := fun j => if j = position then some result.2 else m.buckets j })

/-- `CellHashMap::get(key)`: address the bucket, walk the chain. -/
def CellHashMap.get (hash : K → Nat) (m : CellHashMap K V) (key : K) : Option V :=
  match m.buckets (bucketIdx hash key) with
  | none => none
  | some chain => chainGet chain key

/-- The head node's `next` pointer of a stored chain: what the (commented
out, but required for `remove` to compile) `Iterator` impl for `CellEntry`
yields — it returns `self.next.get()` without ever advancing. -/
def chainNextOf (chain : List (K × V)) : Option (K × V) :=
  match chain with
  | [] => none
  | _ :: rest => rest.head?

/-- `Filter::next` over the constant stream produced by the `CellEntry`
iterator: polls the same element until the predicate accepts it.  Returns
`some (some e)` when an element is yielded, `some none` when the stream is
empty, `none` when the loop exhausts the fuel (the source would loop
forever). -/
def constFilterNext {A : Type} (fuel : Nat) (src : Option A) (pred : A → Bool) :
    Option (Option A) :=
  match fuel, src with
  | _, none => some none
  | 0, some _ => none
  | fuel + 1, some a => if pred a then some (some a) else constFilterNext fuel (some a) pred

/-- `CellHashMap::remove(key)` as the source (with the commented-out
`CellEntry` iterator it needs) actually behaves: the filtered iterator is
built over the constant stream of the root's `next` pointer, so the root
itself is never inspected.  If the bucket is empty or the chain has a single
node, the `if let` chain falls through and nothing changes; if the chain has
two or more nodes, either the filter or the collection `for` loop polls the
constant stream forever (`none` = non-termination). -/
def CellHashMap.remove (hash : K → Nat) (fuel : Nat) (m : CellHashMap K V) (key : K) :
    Option (CellHashMap K V) :=
  let position := bucketIdx hash key
  match m.buckets position with
  | none => some m
  | some chain =>
    match constFilterNext fuel (chainNextOf chain) (fun e => decide (e.1 ≠ key)) with
    | none => none
    | some none => some m
    | some (some _) => none

theorem entrySet_eq (chain : List (K × V)) (key : K) (value : V) :
    entrySet chain key value =
      (chainGet chain key,
        match chainGet chain key with
        | some _ => chainReplace chain key value
        | none => chain ++ [(key, value)]) := by
  induction chain with
  | nil => simp [entrySet, chainGet]
  | cons head rest ih =>
      obtain ⟨k0, v0⟩ := head
      by_cases hk : k0 = key
      · simp [entrySet, chainGet, chainReplace, hk]
      · cases rest with
        | nil => simp [entrySet, chainGet, chainReplace, hk]
        | cons b bs =>
            have hstep : entrySet ((k0, v0) :: b :: bs) key value =
                ((entrySet (b :: bs) key value).1,
                  (k0, v0) :: (entrySet (b :: bs) key value).2) := by
              simp [entrySet, hk]
            have hg : chainGet ((k0, v0) :: b :: bs) key = chainGet (b :: bs) key := by
              simp [chainGet, hk]
            rw [hstep, ih, hg]
            cases hc : chainGet (b :: bs) key <;> simp [chainReplace, hk]

theorem chainReplace_keys (chain : List (K × V)) (key : K) (value : V) :
    (chainReplace chain key value).map Prod.fst = chain.map Prod.fst := by
  induction chain with
  | nil => rfl
  | cons head rest ih =>
      obtain ⟨k0, v0⟩ := head
      by_cases hk : k0 = key <;> simp [chainReplace, hk, ih]

theorem chainReplace_frame (chain : List (K × V)) (key : K) (value : V)
    (j : Nat) (e : K × V) (h : chain[j]? = some e) (hk : e.1 ≠ key) :
    (chainReplace chain key value)[j]? = some e := by
  induction chain generalizing j with
  | nil => simp at h
  | cons head rest ih =>
      obtain ⟨k0, v0⟩ := head
      cases j with
      | zero =>
          simp at h
          subst h
          simp [chainReplace, hk]
      | succ j =>
          simp at h
          by_cases hk0 : k0 = key
          · simp [chainReplace, hk0, h]
          · simp [chainReplace, hk0, ih j h]

theorem chainGet_append_of_none (chain tail : List (K × V)) (key : K)
    (h : chainGet chain key = none) :
    chainGet (chain ++ tail) key = chainGet tail key := by
  induction chain with
  | nil => rfl
  | cons head rest ih =>
      obtain ⟨k0, v0⟩ := head
      by_cases hk : k0 = key
      · simp [chainGet, hk] at h
      · simp [chainGet, hk] at h ⊢
        exact ih h

theorem chainGet_chainReplace (chain : List (K × V)) (key : K) (value : V) :
    chainGet (chainReplace chain key value) key =
      match chainGet chain key with
      | some _ => some value
      | none => none := by
  induction chain with
  | nil => rfl
  | cons head rest ih =>
      obtain ⟨k0, v0⟩ := head
      by_cases hk : k0 = key
      · simp [chainGet, chainReplace, hk]
      · simp only [chainGet, chainReplace, if_neg hk]
        exact ih

theorem chainGet_entrySet_self (chain : List (K × V)) (key : K) (value : V) :
    chainGet (entrySet chain key value).2 key = some value := by
  rw [entrySet_eq]
  cases hc : chainGet chain key with
  | none =>
      simp only
      rw [chainGet_append_of_none chain _ key hc]
      simp [chainGet]
  | some w =>
      simp only
      rw [chainGet_chainReplace chain key value, hc]

theorem hmGet_put (hash : K → Nat) (m : CellHashMap K V) (key : K) (value : V) :
    CellHashMap.get hash (m.put hash key value).2 key = some value := by
  cases hb : m.buckets (bucketIdx hash key) with
  | none => simp [CellHashMap.put, CellHashMap.get, hb, chainGet]
  | some chain =>
      simp [CellHashMap.put, CellHashMap.get, hb, chainGet_entrySet_self]

theorem put_returns_previous (hash : K → Nat) (m : CellHashMap K V) (key : K) (value : V) :
    (m.put hash key value).1 = m.get hash key := by
  cases hb : m.buckets (bucketIdx hash key) with
  | none => simp [CellHashMap.put, CellHashMap.get, hb]
  | some chain =>
      simp [CellHashMap.put, CellHashMap.get, hb, entrySet_eq]

theorem put_buckets_other (hash : K → Nat) (m : CellHashMap K V) (key : K) (value : V)
    (j : Nat) (h : j ≠ bucketIdx hash key) :
    (m.put hash key value).2.buckets j = m.buckets j := by
  cases hb : m.buckets (bucketIdx hash key) with
  | none => simp [CellHashMap.put, hb, h]
  | some chain => simp [CellHashMap.put, hb, h]

/-- C5: Hash table put semantics.  `put(k, v)` addresses bucket
`hash(k) % 256`; an empty bucket gets the single node `{k, v, next=absent}`
installed and `none` is returned; if some node of the chain has key `k`,
exactly that node's value is replaced and the previous value is returned;
otherwise a fresh node is appended at the end of the chain and `none` is
returned.  Consequently `put(k, v1)` then `put(k, v2)` returns `v1` and a
subsequent `get(k)` returns `v2`. -/
theorem C5_put_semantics (hash : K → Nat) (m : CellHashMap K V) (key : K) (value : V) :
    (m.buckets (bucketIdx hash key) = none →
      (m.put hash key value).1 = none ∧
      (m.put hash key value).2.buckets (bucketIdx hash key) = some [(key, value)]) ∧
    (∀ chain w, m.buckets (bucketIdx hash key) = some chain →
      chainGet chain key = some w →
      (m.put hash key value).1 = some w ∧
      (m.put hash key value).2.buckets (bucketIdx hash key) =
        some (chainReplace chain key value)) ∧
    (∀ chain, m.buckets (bucketIdx hash key) = some chain →
      chainGet chain key = none →
      (m.put hash key value).1 = none ∧
      (m.put hash key value).2.buckets (bucketIdx hash key) =
        some (chain ++ [(key, value)])) ∧
    (∀ v2,
      (((m.put hash key value).2).put hash key v2).1 = some value ∧
      CellHashMap.get hash (((m.put hash key value).2).put hash key v2).2 key = some v2) := by
  refine ⟨?_, ?_, ?_, ?_⟩
  · intro hb
    simp [CellHashMap.put, hb]
  · intro chain w hb hw
    simp [CellHashMap.put, hb, entrySet_eq, hw]
  · intro chain hb hw
    simp [CellHashMap.put, hb, entrySet_eq, hw]
  · intro v2
    exact ⟨(put_returns_previous hash (m.put hash key value).2 key v2).trans
        (hmGet_put hash m key value),
      hmGet_put hash (m.put hash key value).2 key v2⟩

theorem C5_put_semantics_witness :
    ((CellHashMap.new (K := Nat) (V := Nat)).put id 3 10).1 = none ∧
    ((CellHashMap.new (K := Nat) (V := Nat)).put id 3 10).2.buckets (bucketIdx id 3) =
      some [(3, 10)] ∧
    ((((CellHashMap.new (K := Nat) (V := Nat)).put id 3 10).2).put id 3 99).1 = some 10 ∧
    ((((CellHashMap.new (K := Nat) (V := Nat)).put id 3 10).2).put id 3 99).2.buckets
        (bucketIdx id 3) = some (chainReplace [(3, 10)] 3 99) ∧
    ((((CellHashMap.new (K := Nat) (V := Nat)).put id 3 10).2).put id 259 7).1 = none ∧
    ((((CellHashMap.new (K := Nat) (V := Nat)).put id 3 10).2).put id 259 7).2.buckets
        (bucketIdx id 259) = some ([(3, 10)] ++ [(259, 7)]) ∧
    ((((CellHashMap.new (K := Nat) (V := Nat)).put id 3 10).2).put id 3 20).1 = some 10 ∧
    CellHashMap.get id
        ((((CellHashMap.new (K := Nat) (V := Nat)).put id 3 10).2).put id 3 20).2 3 =
      some 20 := by
  refine ⟨?_, ?_, ?_, ?_, ?_, ?_, ?_, ?_⟩
  · exact ((C5_put_semantics id (CellHashMap.new (K := Nat) (V := Nat)) 3 10).1 rfl).1
  · exact ((C5_put_semantics id (CellHashMap.new (K := Nat) (V := Nat)) 3 10).1 rfl).2
  · exact ((C5_put_semantics id ((CellHashMap.new (K := Nat) (V := Nat)).put id 3 10).2
      3 99).2.1 [(3, 10)] 10 rfl rfl).1
  · exact ((C5_put_semantics id ((CellHashMap.new (K := Nat) (V := Nat)).put id 3 10).2
      3 99).2.1 [(3, 10)] 10 rfl rfl).2
  · exact ((C5_put_semantics id ((CellHashMap.new (K := Nat) (V := Nat)).put id 3 10).2
      259 7).2.2.1 [(3, 10)] rfl rfl).1
  · exact ((C5_put_semantics id ((CellHashMap.new (K := Nat) (V := Nat)).put id 3 10).2
      259 7).2.2.1 [(3, 10)] rfl rfl).2
  · exact ((C5_put_semantics id (CellHashMap.new (K := Nat) (V := Nat)) 3 10).2.2.2 20).1
  · exact ((C5_put_semantics id (CellHashMap.new (K := Nat) (V := Nat)) 3 10).2.2.2 20).2

/-- C6: the code's `remove(key)` never removes anything.  Evaluating it on a
table holding the single key 7 (alone in its bucket): `remove` terminates
but leaves the table unchanged, so `get 7` still returns the stored value
instead of the absent result the claimed chain-rebuild semantics requires;
and on a bucket whose chain holds two nodes (keys 7 and 263) it fails to
terminate for any fuel bound (here 1000), because the node iterator never
advances past the root's `next` pointer. -/
theorem C6_remove_never_removes :
    CellHashMap.get id ((CellHashMap.new (K := Nat) (V := Nat)).put id 7 42).2 7 =
      some 42 ∧
    CellHashMap.remove id 1000 ((CellHashMap.new (K := Nat) (V := Nat)).put id 7 42).2 7 =
      some ((CellHashMap.new (K := Nat) (V := Nat)).put id 7 42).2 ∧
    CellHashMap.get id ((CellHashMap.new (K := Nat) (V := Nat)).put id 7 42).2 7 ≠ none ∧
    CellHashMap.remove id 1000
        ((((CellHashMap.new (K := Nat) (V := Nat)).put id 7 42).2).put id 263 5).2 7 =
      none := by
  refine ⟨rfl, rfl, by decide, rfl⟩

theorem hmRemove_some_eq (hash : K → Nat) (fuel : Nat) (m m2 : CellHashMap K V) (key : K)
    (h : CellHashMap.remove hash fuel m key = some m2) : m2 = m := by
  simp only [CellHashMap.remove] at h
  cases hb : m.buckets (bucketIdx hash key) with
  | none =>
      simp only [hb] at h
      exact (Option.some.inj h).symm
  | some chain =>
      simp only [hb] at h
      cases hf : constFilterNext fuel (chainNextOf chain) (fun e => decide (e.1 ≠ key)) with
      | none =>
          simp only [hf] at h
          exact Option.noConfusion h
      | some o =>
          cases o with
          | none =>
              simp only [hf] at h
              exact (Option.some.inj h).symm
          | some e =>
              simp only [hf] at h
              exact Option.noConfusion h

/-- C10: bucket isolation and the overwrite frame.  A `put` on a key only
rewrites its own bucket, so `get` on any key of a different bucket is
unchanged; a `remove` that returns leaves `get` on a different bucket's key
unchanged (the code's remove changes nothing at all when it terminates);
and a `put` of an already-present key replaces exactly the matched node's
value — the chain keeps the same keys in the same order, and every node
whose key differs is untouched. -/
theorem C10_bucket_isolation (hash : K → Nat) (m : CellHashMap K V) (k1 k2 : K) (v : V) :
    (bucketIdx hash k1 ≠ bucketIdx hash k2 →
      CellHashMap.get hash (m.put hash k1 v).2 k2 = m.get hash k2) ∧
    (∀ (fuel : Nat) (m2 : CellHashMap K V), bucketIdx hash k1 ≠ bucketIdx hash k2 →
      CellHashMap.remove hash fuel m k1 = some m2 →
      m2.get hash k2 = m.get hash k2) ∧
    (∀ chain w, m.buckets (bucketIdx hash k1) = some chain →
      chainGet chain k1 = some w →
      (m.put hash k1 v).2.buckets (bucketIdx hash k1) = some (chainReplace chain k1 v) ∧
      (chainReplace chain k1 v).map Prod.fst = chain.map Prod.fst ∧
      (∀ (j : Nat) (e : K × V), chain[j]? = some e → e.1 ≠ k1 →
        (chainReplace chain k1 v)[j]? = some e)) := by
  refine ⟨?_, ?_, ?_⟩
  · intro h
    unfold CellHashMap.get
    rw [put_buckets_other hash m k1 v _ (Ne.symm h)]
  · intro fuel m2 _ h
    rw [hmRemove_some_eq hash fuel m m2 k1 h]
  · intro chain w hb hw
    refine ⟨?_, chainReplace_keys chain k1 v, ?_⟩
    · simp [CellHashMap.put, hb, entrySet_eq, hw]
    · intro j e hj he
      exact chainReplace_frame chain k1 v j e hj he

/-- The concrete table used by the C10 witness: keys 1 and 257 collide in
bucket 1 (chain `[(1, 10), (257, 20)]`). -/
def c10Table : CellHashMap Nat Nat :=
  (CellHashMap.put id ((CellHashMap.new (K := Nat) (V := Nat)).put id 1 10).2 257 20).2

theorem C10_bucket_isolation_witness :
    CellHashMap.get id (c10Table.put id 1 99).2 2 = c10Table.get id 2 ∧
    CellHashMap.get id c10Table 2 = c10Table.get id 2 ∧
    (c10Table.put id 1 99).2.buckets (bucketIdx id 1) =
      some (chainReplace [(1, 10), (257, 20)] 1 99) ∧
    (chainReplace [(1, 10), (257, 20)] 1 99).map Prod.fst =
      ([(1, 10), (257, 20)] : List (Nat × Nat)).map Prod.fst ∧
    (chainReplace [(1, 10), (257, 20)] 1 99)[1]? = some (257, 20) := by
  refine ⟨?_, ?_, ?_, ?_, ?_⟩
  · exact (C10_bucket_isolation id c10Table 1 2 99).1 (by decide)
  · exact (C10_bucket_isolation id c10Table 3 2 99).2.1 5 c10Table (by decide) (by rfl)
  · exact ((C10_bucket_isolation id c10Table 1 2 99).2.2
      [(1, 10), (257, 20)] 10 rfl rfl).1
  · exact ((C10_bucket_isolation id c10Table 1 2 99).2.2
      [(1, 10), (257, 20)] 10 rfl rfl).2.1
  · exact ((C10_bucket_isolation id c10Table 1 2 99).2.2
      [(1, 10), (257, 20)] 10 rfl rfl).2.2 1 (257, 20) (by decide) (by decide)

/-!
Atomic multi-cell transform (src/src/data_access/locking_mutate/mod.rs,
`locking_mutate!`, with the newtype conversions of `data_structures.rs`).

The macro receives an ordered list of `Da`/`Oda` handles.  It acquires every
handle's lock in the given order, clones each guarded value out (`ooa`: the
value for a `Da`, the optional value for an `Oda`), invokes the closure once
with all clones, and writes each component of the returned tuple back into
the corresponding slot (`Wrapper` conversion: a fresh `Arc` per value; an
absent `Oda` result installs `None` without allocating) while all locks are
held.  The per-arity expansion is modelled by recursion over the list of
cell kinds, with the shared allocation heap threaded through. -/

/-- The kind of each handle passed to `locking_mutate!`. -/
inductive CKind where
  | cell
  | ocell
deriving Repr, DecidableEq

/-- The closure's parameter/result type for one handle (`ooa` output):
the cloned value for a `Da`, the optional cloned value for an `Oda`. -/
abbrev CKindTy (V : Type) : CKind → Type
  | .cell => V
  | .ocell => Option V

/-- The slot content for one handle: the address guarded by its lock. -/
abbrev CSlotTy : CKind → Type
  | .cell => Nat
  | .ocell => Option Nat

/-- The ordered tuple of unwrapped values, one per handle. -/
abbrev LmVals (V : Type) : List CKind → Type
  | [] => PUnit
  | k :: ks => CKindTy V k × LmVals V ks

/-- The ordered tuple of slot contents, one per handle. -/
abbrev LmSlots : List CKind → Type
  | [] => PUnit
  | k :: ks => CSlotTy k × LmSlots ks

/-- Clone each guarded value out, in order (`ooa` per handle). -/
def readAll [Inhabited V] (heap : List V) : (ks : List CKind) → LmSlots ks → LmVals V ks
  | [], _ => PUnit.unit
  | .cell :: ks, s => (heapAt heap s.1, readAll heap ks s.2)
  | .ocell :: ks, s => (s.1.map (heapAt heap), readAll heap ks s.2)

/-- Write each result back into its slot, in order: every written value gets
a fresh allocation (`Arc::new` via the `Wrapper` conversions); an absent
`Oda` result installs `None` with no allocation. -/
def writeAll : (ks : List CKind) → List V → LmVals V ks → List V × LmSlots ks
  | [], heap, _ => (heap, PUnit.unit)
  | .cell :: ks, heap, vs =>
      let r := writeAll ks (heap ++ [vs.1]) vs.2
      (r.1, (heap.length, r.2))
  | .ocell :: ks, heap, vs =>
      match vs.1 with
      | some v =>
          let r := writeAll ks (heap ++ [v]) vs.2
          (r.1, (some heap.length, r.2))
      | none =>
          let r := writeAll ks heap vs.2
          (r.1, (none, r.2))

/-- `locking_mutate!(c1, ..., cn; f)`: under all the locks, clone all values
out in order, invoke `f` once, and write the results back in order. -/
def lockingMutate [Inhabited V] (ks : List CKind) (f : LmVals V ks → LmVals V ks)
    (heap : List V) (cells : LmSlots ks) : List V × LmSlots ks :=
  writeAll ks heap (f (readAll heap ks cells))

theorem heapAt_append_cons [Inhabited V] (heap : List V) (v : V) (tail : List V) :
    heapAt (heap ++ v :: tail) heap.length = v := by
  simp [heapAt, List.getD]
  rw [List.getElem_append_right (le_refl _)]
  simp

theorem writeAll_heap_eq (ks : List CKind) (heap : List V) (vs : LmVals V ks) :
    ∃ tail, (writeAll ks heap vs).1 = heap ++ tail := by
  induction ks generalizing heap with
  | nil => exact ⟨[], by simp [writeAll]⟩
  | cons k ks ih =>
      cases k with
      | cell =>
          obtain ⟨tail, htail⟩ := ih (heap ++ [vs.1]) vs.2
          exact ⟨vs.1 :: tail, by simp [writeAll, htail]⟩
      | ocell =>
          cases hv : vs.1 with
          | some v =>
              obtain ⟨tail, htail⟩ := ih (heap ++ [v]) vs.2
              exact ⟨v :: tail, by simp [writeAll, hv, htail]⟩
          | none =>
              obtain ⟨tail, htail⟩ := ih heap vs.2
              exact ⟨tail, by simp [writeAll, hv, htail]⟩

theorem readAll_writeAll [Inhabited V] (ks : List CKind) (heap : List V)
    (vs : LmVals V ks) :
    readAll (writeAll ks heap vs).1 ks (writeAll ks heap vs).2 = vs := by
  induction ks generalizing heap with
  | nil => rfl
  | cons k ks ih =>
      cases k with
      | cell =>
          obtain ⟨v, rest⟩ := vs
          have hrec := ih (heap ++ [v]) rest
          obtain ⟨tail, htail⟩ := writeAll_heap_eq ks (heap ++ [v]) rest
          simp only [writeAll, readAll]
          refine Prod.ext ?_ hrec
          show heapAt (writeAll ks (heap ++ [v]) rest).1 heap.length = v
          rw [htail, List.append_assoc]
          exact heapAt_append_cons heap v tail
      | ocell =>
          obtain ⟨ov, rest⟩ := vs
          cases ov with
          | some v =>
              have hrec := ih (heap ++ [v]) rest
              obtain ⟨tail, htail⟩ := writeAll_heap_eq ks (heap ++ [v]) rest
              simp only [writeAll, readAll]
              refine Prod.ext ?_ hrec
              show Option.map (heapAt (writeAll ks (heap ++ [v]) rest).1)
                  (some heap.length) = some v
              rw [htail, List.append_assoc]
              simp [heapAt_append_cons heap v tail]
          | none =>
              have hrec := ih heap rest
              simp only [writeAll, readAll]
              exact Prod.ext rfl hrec

/-- C3: Atomic multi-cell transform correctness.  For every ordered list of
cells (any mix of `Da`/`Oda`) and transform `f`, the protocol hands `f` the
current unwrapped values of all cells in order (cloned value for a `Da`,
absent-or-value for an `Oda`), receives exactly one result per cell in the
same order (enforced by the tuple type), and writes result i back into cell
i: reading all cells afterwards yields exactly `f` of the values read
before.  In particular, two `Da` cells holding 1 and 2 transformed by
`f (a, b) = (a + 1, b + 1)` hold 2 and 3 afterwards. -/
theorem C3_atomic_transform :
    (∀ (V : Type) (_inst : Inhabited V) (ks : List CKind)
        (f : LmVals V ks → LmVals V ks) (heap : List V) (cells : LmSlots ks),
      readAll (lockingMutate ks f heap cells).1 ks (lockingMutate ks f heap cells).2 =
        f (readAll heap ks cells)) ∧
    (readAll
        (lockingMutate (V := Nat) [.cell, .cell]
          (fun vs => (vs.1 + 1, (vs.2.1 + 1, PUnit.unit))) [1, 2]
          (0, (1, PUnit.unit))).1
        [.cell, .cell]
        (lockingMutate (V := Nat) [.cell, .cell]
          (fun vs => (vs.1 + 1, (vs.2.1 + 1, PUnit.unit))) [1, 2]
          (0, (1, PUnit.unit))).2 =
      ((2 : Nat), ((3 : Nat), PUnit.unit))) := by
  constructor
  · intro V _inst ks f heap cells
    exact readAll_writeAll ks heap (f (readAll heap ks cells))
  · rfl
